import Mathlib

/-! Verification of the LibraryAdmin document-indexing engine.

This file gives a shallow embedding of the core of the repository —
the filename classifier of `bookrepo.py`, the title-escaping scheme of
`fileitem.py` and `mongo.py`, the Mongo-backed reconciliation engine
(`Books.checknew`, `Books.insert`, `Books.update`, `Books.cleanup` of
`mongo.py`), the SQLite summary snapshot (`Database.books` of
`database.py`) and the per-root counter aggregation
(`BookRepo.summary` of `bookrepo.py`) — and proves the reconciliation,
cleanup, classification, escaping, ordering and aggregation properties
stated about it.

Strings are modelled as lists of characters, file sizes, timestamps and
content hashes as natural numbers, and the filesystem as an abstract
record of `stat` / `exists` / content-hash oracles.  Fallible Python
code (an uncaught `OSError` propagating out of a pass) is modelled by
`Option`: a `none` result is an exception that aborted the pass. -/

/-- Strings are modelled as lists of characters. -/
abbrev Str := List Char

/-- Embeds Python `os.path.join(a, b)` for POSIX paths: an absolute second
component replaces the first; otherwise a single separator is inserted
unless the first component is empty or already ends with one. -/
def pyJoin (a b : Str) : Str :=
  if b.head? = some '/' then b
  else if a = [] ∨ a.getLast? = some '/' then a ++ b
  else a ++ '/' :: b

/-- Embeds `s.replace("/", "%2f")`, the escaping used by `Books.docpath`
and `Books.cleanup` (mongo.py) when a logical title is mapped back to a
filename: every separator character becomes the three-character token. -/
def encodeSep : Str → Str
  | [] => []
  | c :: rest => if c = '/' then '%' :: '2' :: 'f' :: encodeSep rest else c :: encodeSep rest

/-- Embeds `s.replace("%2f", "/")` from `FileItem.title` (fileitem.py):
a single left-to-right scan replacing non-overlapping occurrences of the
three-character token by the separator, exactly as Python `str.replace`
does. -/
def decodeSep : Str → Str
  | [] => []
  | [c] => [c]
  | [c, d] => [c, d]
  | c :: d :: e :: rest =>
    if c = '%' ∧ d = '2' ∧ e = 'f' then '/' :: decodeSep rest
    else c :: decodeSep (d :: e :: rest)

/-- Whether the literal three-character token `%2f` occurs somewhere in
the string. -/
def hasPctTok : Str → Bool
  | [] => false
  | [_] => false
  | [_, _] => false
  | c :: d :: e :: rest =>
    if c = '%' ∧ d = '2' ∧ e = 'f' then true else hasPctTok (d :: e :: rest)

theorem encodeSep_cons_ne (c : Char) (r : Str) (h : c ≠ '/') :
    encodeSep (c :: r) = c :: encodeSep r := by
  simp [encodeSep, h]

theorem decodeSep_cons_ne (c : Char) (l : Str) (h : c ≠ '%') :
    decodeSep (c :: l) = c :: decodeSep l := by
  match l with
  | [] => rfl
  | [d] => rfl
  | d :: e :: rest => simp [decodeSep, h]

theorem decodeSep_pct_ne (d : Char) (l : Str) (h : d ≠ '2') :
    decodeSep ('%' :: d :: l) = '%' :: decodeSep (d :: l) := by
  match l with
  | [] => rfl
  | e :: rest => simp [decodeSep, h]

theorem decodeSep_pct2_ne (e : Char) (l : Str) (h : e ≠ 'f') :
    decodeSep ('%' :: '2' :: e :: l) = '%' :: '2' :: decodeSep (e :: l) := by
  have h1 : decodeSep ('%' :: '2' :: e :: l) = '%' :: decodeSep ('2' :: e :: l) := by
    simp [decodeSep, h]
  rw [h1, decodeSep_cons_ne '2' (e :: l) (by decide)]

theorem hasPctTok_tail (c : Char) (r : Str) (h : hasPctTok (c :: r) = false) :
    hasPctTok r = false := by
  match r with
  | [] => rfl
  | [d] => rfl
  | d :: e :: rest =>
    by_cases hc : c = '%' ∧ d = '2' ∧ e = 'f'
    · simp [hasPctTok, hc] at h
    · simpa [hasPctTok, hc] using h

theorem decode_encode_aux :
    ∀ (n : Nat) (t : Str), t.length ≤ n → hasPctTok t = false →
      decodeSep (encodeSep t) = t := by
  intro n
  induction n with
  | zero =>
    intro t ht _
    have : t = [] := by
      cases t with
      | nil => rfl
      | cons c r => simp at ht
    subst this; rfl
  | succ n ih =>
    intro t ht htok
    cases t with
    | nil => rfl
    | cons c r =>
      have hlen : r.length ≤ n := by simp at ht; omega
      by_cases hc : c = '/'
      · subst hc
        have hr : hasPctTok r = false := hasPctTok_tail _ _ htok
        have ihh : decodeSep (encodeSep r) = r := ih r hlen hr
        simp [encodeSep, decodeSep, ihh]
      · by_cases hp : c = '%'
        · subst hp
          cases r with
          | nil => rfl
          | cons d r2 =>
            have hlen2 : r2.length ≤ n := by simp at ht; omega
            by_cases hd : d = '2'
            · subst hd
              cases r2 with
              | nil => rfl
              | cons e r3 =>
                by_cases he : e = 'f'
                · subst he
                  simp [hasPctTok] at htok
                · have step : encodeSep ('%' :: '2' :: e :: r3) =
                      '%' :: '2' :: encodeSep (e :: r3) := by
                    rw [encodeSep_cons_ne '%' _ (by decide),
                        encodeSep_cons_ne '2' _ (by decide)]
                  obtain ⟨x, xs, hx, hxf⟩ :
                      ∃ x xs, encodeSep (e :: r3) = x :: xs ∧ x ≠ 'f' := by
                    by_cases hee : e = '/'
                    · subst hee
                      exact ⟨'%', '2' :: 'f' :: encodeSep r3, by simp [encodeSep], by decide⟩
                    · exact ⟨e, encodeSep r3, by rw [encodeSep_cons_ne e _ hee], he⟩
                  have tk : hasPctTok (e :: r3) = false :=
                    hasPctTok_tail _ _ (hasPctTok_tail _ _ htok)
                  have hlen3 : (e :: r3).length ≤ n := by simp at ht ⊢; omega
                  have ihh : decodeSep (encodeSep (e :: r3)) = e :: r3 :=
                    ih (e :: r3) hlen3 tk
                  rw [step, hx, decodeSep_pct2_ne x xs hxf, ← hx, ihh]
            · by_cases hdd : d = '/'
              · subst hdd
                have tk : hasPctTok r2 = false :=
                  hasPctTok_tail _ _ (hasPctTok_tail _ _ htok)
                have ihh : decodeSep (encodeSep r2) = r2 := ih r2 hlen2 tk
                have step : encodeSep ('%' :: '/' :: r2) =
                    '%' :: '%' :: '2' :: 'f' :: encodeSep r2 := by
                  rw [encodeSep_cons_ne '%' _ (by decide)]
                  simp [encodeSep]
                rw [step, decodeSep_pct_ne '%' _ (by decide)]
                simp [decodeSep, ihh]
              · have tk : hasPctTok (d :: r2) = false := hasPctTok_tail _ _ htok
                have ihh : decodeSep (encodeSep (d :: r2)) = d :: r2 :=
                  ih (d :: r2) hlen tk
                rw [encodeSep_cons_ne '%' _ (by decide), encodeSep_cons_ne d _ hdd,
                    decodeSep_pct_ne d _ hd, ← encodeSep_cons_ne d r2 hdd, ihh]
        · have tk : hasPctTok r = false := hasPctTok_tail _ _ htok
          have ihh : decodeSep (encodeSep r) = r := ih r hlen tk
          rw [encodeSep_cons_ne c r hc, decodeSep_cons_ne c _ hp, ihh]

/-- C4 counterexample: for the three-character title that is already the
literal token `%2f`, encoding leaves it unchanged (it contains no
separator) but decoding then turns it into a separator, so
`decode (encode title)` differs from `title`.  The claimed round trip
fails on a title containing zero separator characters. -/
theorem decode_encode_counterexample :
    decodeSep (encodeSep ['%', '2', 'f']) = ['/'] ∧
      decodeSep (encodeSep ['%', '2', 'f']) ≠ ['%', '2', 'f'] := by
  decide

/-- C4 (amended): for every title in which the literal token `%2f` does
not occur — in particular for every title containing any number of
separator characters but no pre-encoded token — decoding the encoding
yields the title back unchanged: `decodeSep (encodeSep t) = t`. -/
theorem decode_encode_token_free (t : Str) (h : hasPctTok t = false) :
    decodeSep (encodeSep t) = t :=
  decode_encode_aux t.length t (Nat.le_refl _) h

theorem decode_encode_token_free_witness :
    hasPctTok ['a', '/', 'b', '/', 'c'] = false ∧
      decodeSep (encodeSep ['a', '/', 'b', '/', 'c']) = ['a', '/', 'b', '/', 'c'] :=
  ⟨by decide, decode_encode_token_free ['a', '/', 'b', '/', 'c'] (by decide)⟩

/-- The interface of Python's `mimetypes` module as consumed by
`BookRepo._find_in`: `guessType` returns an optional content type
together with an optional transport encoding, and `guessAllExtensions`
enumerates the filename extensions associated with a content type. -/
structure Mime where
  guessType : Str → Option (Str × Option Str)
  guessAllExtensions : Str → List Str

/-- The string `"gzip"`. -/
def gzipStr : Str := ['g', 'z', 'i', 'p']

/-- The suffix `".gz"` appended to every candidate extension when the
detected encoding is gzip. -/
def gzSuffix : Str := ['.', 'g', 'z']

/-- Embeds the Python slice `filename[:-n]`: dropping the last `n`
characters, where `n = 0` yields the empty string (`s[:-0]` is `s[:0]`). -/
def dropExt (s : Str) (n : Nat) : Str := if n = 0 then [] else s.take (s.length - n)

/-- The effective candidate-extension list of `BookRepo._find_in`: the
extensions of the guessed content type, each suffixed with `".gz"` when
the detected encoding is gzip. -/
def effectiveExts (m : Mime) (mt : Str) (enc : Option Str) : List Str :=
  if enc = some gzipStr then (m.guessAllExtensions mt).map (fun e => e ++ gzSuffix)
  else m.guessAllExtensions mt

/-- Embeds the classification block of `BookRepo._find_in` (bookrepo.py):
look up the MIME type of the filename; if one is found, try each
candidate extension in enumeration order, and on the first one that is a
suffix of the filename return the filename with that suffix removed as
the title and the candidate without its first character as the type;
otherwise return the whole filename and the empty type. -/
def classify (m : Mime) (filename : Str) : Str × Str :=
  match m.guessType filename with
  | none => (filename, [])
  | some (mt, enc) =>
    match (effectiveExts m mt enc).find? (fun e => e.isSuffixOf filename) with
    | none => (filename, [])
    | some e => (dropExt filename e.length, e.drop 1)

/-- C3: classifier round trip.  If a MIME type is found and the first
candidate extension (gzip-suffixed when the encoding is gzip) that is a
suffix of the filename starts with the separator `.`, then the type is
that candidate with the leading separator stripped, the title is the
filename with the suffix removed, and `title ++ "." ++ type` reproduces
the original filename.  If no MIME type is found, or no candidate
matches, the type is empty and the title is the whole filename. -/
theorem classify_round_trip (m : Mime) (filename : Str) :
    (∀ mt enc e, m.guessType filename = some (mt, enc) →
      (effectiveExts m mt enc).find? (fun x => x.isSuffixOf filename) = some e →
      e.head? = some '.' →
      classify m filename = (dropExt filename e.length, e.drop 1) ∧
        dropExt filename e.length ++ '.' :: e.drop 1 = filename) ∧
    (m.guessType filename = none → classify m filename = (filename, [])) ∧
    (∀ mt enc, m.guessType filename = some (mt, enc) →
      (effectiveExts m mt enc).find? (fun x => x.isSuffixOf filename) = none →
      classify m filename = (filename, [])) := by
  refine ⟨?_, ?_, ?_⟩
  · intro mt enc e hg hf hdot
    constructor
    · simp [classify, hg, hf]
    · cases e with
      | nil => simp at hdot
      | cons a tail =>
        have ha : a = '.' := by simpa using hdot
        subst ha
        have hsuf : ('.' :: tail).isSuffixOf filename = true := by
          have := List.find?_some hf
          simpa using this
        rw [List.isSuffixOf_iff_suffix] at hsuf
        obtain ⟨pre, hpre⟩ := hsuf
        have hlen : filename.length = pre.length + ('.' :: tail).length := by
          rw [← hpre]; simp
        have hdrop : dropExt filename (('.' :: tail).length) = pre := by
          unfold dropExt
          have : ('.' :: tail).length ≠ 0 := by simp
          rw [if_neg this, hlen]
          have : pre.length + ('.' :: tail).length - ('.' :: tail).length = pre.length := by
            omega
          rw [this, ← hpre, List.take_left]
        rw [hdrop]
        simpa using hpre
  · intro hg
    simp [classify, hg]
  · intro mt enc hg hf
    simp [classify, hg, hf]

theorem classify_round_trip_witness :
    classify
        ⟨fun _ => some (['p', 'd', 'f'], none), fun _ => [['.', 'p', 'd', 'f']]⟩
        ['a', '.', 'p', 'd', 'f'] = (['a'], ['p', 'd', 'f']) ∧
      ['a'] ++ '.' :: ['p', 'd', 'f'] = ['a', '.', 'p', 'd', 'f'] := by
  have h := (classify_round_trip
      ⟨fun _ => some (['p', 'd', 'f'], none), fun _ => [['.', 'p', 'd', 'f']]⟩
      ['a', '.', 'p', 'd', 'f']).1 ['p', 'd', 'f'] none ['.', 'p', 'd', 'f']
      rfl (by decide) rfl
  exact ⟨h.1, h.2⟩

/-- A `FileItem` (fileitem.py) as consumed by `Books.checknew`: the
directory relative to the library root, the raw (escaped) filename part,
the extension tag, the size and modification time observed by the scan,
and the path of the underlying directory entry (`entry.path`). -/
structure Item where
  dir : Str
  file : Str
  type : Str
  size : Nat
  mtime : Nat
  entryPath : Str
deriving DecidableEq

/-- Embeds `FileItem.title` (fileitem.py): the logical title is the raw
filename part with every `%2f` token decoded to a separator. -/
def Item.title (i : Item) : Str := decodeSep i.file

/-- A persisted document of the Mongo `books` collection (mongo.py),
with its `_id` modelled as a natural number and a nullable content
hash. -/
structure Doc where
  id : Nat
  title : Str
  type : Str
  directory : Str
  size : Nat
  mtime : Nat
  hash : Option Nat
deriving DecidableEq

/-- The document store: the collection contents in insertion order plus
the next fresh `_id`. -/
structure Store where
  docs : List Doc
  nextId : Nat
deriving DecidableEq

/-- Operation counters of a reconciliation pass: number of `insert_one`,
`update_one` and `delete_one` calls executed. -/
structure Counts where
  ins : Nat
  upd : Nat
  rem : Nat
deriving DecidableEq

/-- The filesystem as seen by mongo.py: `stat` returns the size and
modification time of a path or `none` for an `OSError`; `fileExists`
embeds `os.path.exists`; `hash` embeds `filehash` and returns `none`
when the file is unreadable (`OSError`). -/
structure FS where
  stat : Str → Option (Nat × Nat)
  fileExists : Str → Bool
  hash : Str → Option Nat

namespace Books

/-- The path `os.path.join(self.db_dir, item.path())` used by
`Books.insert` and `Books.update`. -/
def itemPath (dbDir : Str) (i : Item) : Str := pyJoin dbDir i.entryPath

/-- Embeds `Books.docpath` (mongo.py), also the path reconstruction of
`Books.cleanup`: `os.path.join(db_dir, directory,
title.replace("/", "%2f") + os.path.extsep + type)`. -/
def docpath (dbDir : Str) (d : Doc) : Str :=
  pyJoin (pyJoin dbDir d.directory) (encodeSep d.title ++ '.' :: d.type)

/-- Embeds `delete_one({'_id': i})`: remove the first document with the
given id. -/
def deleteOne : List Doc → Nat → List Doc
  | [], _ => []
  | d :: rest, i => if d.id = i then rest else d :: deleteOne rest i

/-- Embeds `update_one({'_id': i}, {'$set': ...})`: apply the field
update `g` to the first document with the given id. -/
def updateOne : List Doc → Nat → (Doc → Doc) → List Doc
  | [], _, _ => []
  | d :: rest, i, g => if d.id = i then g d :: rest else d :: updateOne rest i g

/-- Embeds `Books.insert` (mongo.py): hash the live file; on an
`OSError` the insertion is abandoned (caught and logged), otherwise a
new document is inserted with the scan's size and mtime and the computed
hash.  Returns the store and the number of `insert_one` calls. -/
def insert (fs : FS) (dbDir : Str) (st : Store) (item : Item) : Store × Nat :=
  match fs.hash (itemPath dbDir item) with
  | none => (st, 0)
  | some h =>
    ({ docs := st.docs ++ [{ id := st.nextId, title := item.title, type := item.type,
                             directory := item.dir, size := item.size, mtime := item.mtime,
                             hash := some h }],
       nextId := st.nextId + 1 }, 1)

/-- Embeds `Books.update` (mongo.py).  `doc` is the snapshot read from
the find cursor.  A failing `os.stat` removes the document.  A size or
mtime difference recomputes the hash and overwrites size, mtime and
hash; a missing hash is backfilled.  In those two branches `filehash` is
called outside any try/except, so an `OSError` there propagates:
modelled as `none`.  Returns the store, the number of `update_one` calls
and the number of `delete_one` calls. -/
def update (fs : FS) (dbDir : Str) (st : Store) (doc : Doc) (item : Item) :
    Option (Store × Nat × Nat) :=
  match fs.stat (itemPath dbDir item) with
  | none => some ({ st with docs := deleteOne st.docs doc.id }, 0, 1)
  | some (sz, mt) =>
    if doc.size ≠ sz ∨ doc.mtime ≠ mt then
      match fs.hash (itemPath dbDir item) with
      | none => none
      | some h =>
        let g : Doc → Doc := fun d => { d with size := sz, mtime := mt, hash := some h }
        some ({ st with docs := updateOne st.docs doc.id g }, 1, 0)
    else if doc.hash = none then
      match fs.hash (itemPath dbDir item) with
      | none => none
      | some h =>
        let g : Doc → Doc := fun d => { d with hash := some h }
        some ({ st with docs := updateOne st.docs doc.id g }, 1, 0)
    else some (st, 0, 0)

/-- The inner loop of `Books.checknew`: for every snapshot document of
the `(title, type)` cursor whose directory equals the item's directory,
run `update`; the returned flag is the `updated` boolean. -/
def updateLoop (fs : FS) (dbDir : Str) (item : Item) :
    Store → List Doc → Option (Store × Counts × Bool)
  | st, [] => some (st, ⟨0, 0, 0⟩, false)
  | st, d :: ds =>
    if d.directory = item.dir then
      match update fs dbDir st d item with
      | none => none
      | some (st₂, u, r) =>
        match updateLoop fs dbDir item st₂ ds with
        | none => none
        | some (st₃, c, _) => some (st₃, ⟨c.ins, u + c.upd, r + c.rem⟩, true)
    else updateLoop fs dbDir item st ds

/-- One iteration of `Books.checknew`'s outer loop: find the documents
sharing the item's `(title, type)`, update the ones in the same
directory, and insert a new document when none matched. -/
def processItem (fs : FS) (dbDir : Str) (st : Store) (item : Item) :
    Option (Store × Counts) :=
  match updateLoop fs dbDir item st
      (st.docs.filter (fun d => d.title == item.title && d.type == item.type)) with
  | none => none
  | some (st₂, c, true) => some (st₂, c)
  | some (st₂, c, false) =>
    match insert fs dbDir st₂ item with
    | (st₃, n) => some (st₃, ⟨c.ins + n, c.upd, c.rem⟩)

/-- Embeds `Books.checknew` (mongo.py) applied to the items produced by
a scan, accumulating the operation counters of the pass. -/
def checknew (fs : FS) (dbDir : Str) : List Item → Store → Option (Store × Counts)
  | [], st => some (st, ⟨0, 0, 0⟩)
  | item :: items, st =>
    match processItem fs dbDir st item with
    | none => none
    | some (st₂, c) =>
      match checknew fs dbDir items st₂ with
      | none => none
      | some (st₃, c₂) => some (st₃, ⟨c.ins + c₂.ins, c.upd + c₂.upd, c.rem + c₂.rem⟩)

/-- The loop of `Books.cleanup` over the snapshot `list(books.find())`:
a document whose reconstructed path does not exist is removed; when
`checkHash` is set the file is re-hashed (`filehash` is not wrapped in a
try/except here, so an `OSError` propagates: `none`), and a mismatch is
only reported.  Returns the store and the number of `delete_one` calls. -/
def cleanupGo (fs : FS) (dbDir : Str) (checkHash : Bool) :
    List Doc → Store → Option (Store × Nat)
  | [], st => some (st, 0)
  | d :: ds, st =>
    if fs.fileExists (docpath dbDir d) = false then
      match cleanupGo fs dbDir checkHash ds { st with docs := deleteOne st.docs d.id } with
      | none => none
      | some (st₂, r) => some (st₂, r + 1)
    else if checkHash then
      match fs.hash (docpath dbDir d) with
      | none => none
      | some _ => cleanupGo fs dbDir checkHash ds st
    else cleanupGo fs dbDir checkHash ds st

/-- Embeds `Books.cleanup` (mongo.py): iterate over a snapshot of the
whole collection. -/
def cleanup (fs : FS) (dbDir : Str) (checkHash : Bool) (st : Store) :
    Option (Store × Nat) :=
  cleanupGo fs dbDir checkHash st.docs st

end Books

/-- A row of the SQLite `books` table of database.py:
`(type, dir, title, fsize, mtime)`. -/
structure Row where
  type : Str
  dir : Str
  title : Str
  fsize : Nat
  mtime : Nat
deriving DecidableEq

/-- The tuple yielded by `Database.find_books` for one scanned item. -/
def rowOfItem (i : Item) : Row :=
  { type := i.type, dir := i.dir, title := i.title, fsize := i.size, mtime := i.mtime }

/-- Embeds `Database.create` (database.py): populate the `books` table
with one row per scanned item, in scan order. -/
def createDB (items : List Item) : List Row := items.map rowOfItem

/-- Binary (memcmp-style) lexicographic comparison of strings, the
`BINARY` collation SQLite applies to `order by title`. -/
def strLe : Str → Str → Bool
  | [], _ => true
  | _ :: _, [] => false
  | a :: as, b :: bs => if a < b then true else if b < a then false else strLe as bs

/-- Embeds `Database.books` (database.py): when the database file is
absent it is first created and populated from a full scan; then
`select type, dir, title from books order by title` is served.  Returns
the emitted rows and the resulting table contents. -/
def booksQuery (dbFile : Option (List Row)) (items : List Item) :
    List (Str × Str × Str) × List Row :=
  match dbFile with
  | none =>
    let rows := createDB items
    ((rows.mergeSort (fun a b => strLe a.title b.title)).map (fun r => (r.type, r.dir, r.title)),
      rows)
  | some rows =>
    ((rows.mergeSort (fun a b => strLe a.title b.title)).map (fun r => (r.type, r.dir, r.title)),
      rows)

theorem strLe_total (a b : Str) : (strLe a b || strLe b a) = true := by
  induction a generalizing b with
  | nil => simp [strLe]
  | cons x xs ih =>
    cases b with
    | nil => simp [strLe]
    | cons y ys =>
      by_cases hxy : x < y
      · simp [strLe, hxy]
      · by_cases hyx : y < x
        · have hne : ¬x < y := hxy
          simp [strLe, hyx, hne]
        · simp [strLe, hxy, hyx, ih ys]

theorem strLe_trans (a b c : Str) (hab : strLe a b = true) (hbc : strLe b c = true) :
    strLe a c = true := by
  induction a generalizing b c with
  | nil => simp [strLe]
  | cons x xs ih =>
    cases b with
    | nil => simp [strLe] at hab
    | cons y ys =>
      cases c with
      | nil => simp [strLe] at hbc
      | cons z zs =>
        by_cases hxy : x < y
        · by_cases hyz : y < z
          · have hxz : x < z := lt_trans hxy hyz
            simp [strLe, hxz]
          · by_cases hzy : z < y
            · simp [strLe, hyz, hzy] at hbc
            · have hyztrich : y = z := le_antisymm (not_lt.mp hzy) (not_lt.mp hyz)
              subst hyztrich
              simp [strLe, hxy]
        · by_cases hyx : y < x
          · simp [strLe, hxy, hyx] at hab
          · have hxytrich : x = y := le_antisymm (not_lt.mp hyx) (not_lt.mp hxy)
            subst hxytrich
            by_cases hyz : x < z
            · simp [strLe, hyz]
            · by_cases hzy : z < x
              · simp [strLe, hyz, hzy] at hbc
              · have : x = z := le_antisymm (not_lt.mp hzy) (not_lt.mp hyz)
                subst this
                simp [strLe, hxy, hyx] at hab hbc ⊢
                exact ih ys zs hab hbc

/-- C8: the listing operation of the summary index.  The emitted rows
are ordered by title ascending and are a permutation of (the projection
of) the stored rows; when no database file exists the store is first
transparently created and populated from the scan, and when one exists
its rows are served as they are. -/
theorem books_sorted_and_lazy (dbFile : Option (List Row)) (items : List Item) :
    List.Pairwise (fun a b => strLe a.2.2 b.2.2 = true) (booksQuery dbFile items).1
    ∧ (booksQuery dbFile items).1.Perm
        ((booksQuery dbFile items).2.map (fun r => (r.type, r.dir, r.title)))
    ∧ (booksQuery none items).2 = createDB items
    ∧ (∀ rows, (booksQuery (some rows) items).2 = rows) := by
  have hsort : ∀ rows : List Row,
      List.Pairwise (fun a b : Row => strLe a.title b.title = true)
        (rows.mergeSort (fun a b => strLe a.title b.title)) := by
    intro rows
    exact List.sorted_mergeSort
      (fun a b c hab hbc => strLe_trans a.title b.title c.title hab hbc)
      (fun a b => strLe_total a.title b.title) rows
  have hmain : ∀ rows : List Row,
      List.Pairwise (fun a b : Str × Str × Str => strLe a.2.2 b.2.2 = true)
        ((rows.mergeSort (fun a b => strLe a.title b.title)).map
          (fun r => (r.type, r.dir, r.title)))
      ∧ ((rows.mergeSort (fun a b => strLe a.title b.title)).map
          (fun r => (r.type, r.dir, r.title))).Perm
          (rows.map (fun r => (r.type, r.dir, r.title))) := by
    intro rows
    constructor
    · exact List.Pairwise.map _ (fun a b h => h) (hsort rows)
    · exact (List.mergeSort_perm rows _).map _
  cases dbFile with
  | none => exact ⟨(hmain _).1, (hmain _).2, rfl, fun rows => rfl⟩
  | some rows => exact ⟨(hmain _).1, (hmain _).2, rfl, fun rows => rfl⟩

/-- Embeds `directory.split('/')[0]` from `BookRepo.summary`: the prefix
of the directory path before its first separator (the top-level root). -/
def splitHead (s : Str) : Str := s.takeWhile (fun c => c != '/')

/-- Adding `v` under key `k` to a counter represented as an association
list, as `Counter.__iadd__` does on the observable counts: an existing
key is bumped, a new key is appended. -/
def counterAdd : List (Str × Nat) → Str → Nat → List (Str × Nat)
  | [], k, v => [(k, v)]
  | (k', v') :: rest, k, v =>
    if k' = k then (k', v' + v) :: rest else (k', v') :: counterAdd rest k v

/-- Counter lookup: the count stored under a key, `0` when absent. -/
def cget (m : List (Str × Nat)) (k : Str) : Nat :=
  match m.find? (fun p => p.1 == k) with
  | some p => p.2
  | none => 0

/-- Embeds the aggregation loop of `BookRepo.summary` (bookrepo.py):
`for directory, cnt in count.items(): sumcount += Counter({root: cnt})`
starting from an empty counter. -/
def sumcountOf (count : List (Str × Nat)) : List (Str × Nat) :=
  count.foldl (fun acc p => counterAdd acc (splitHead p.1) p.2) []

/-- Embeds `sum(count.values())` from `BookRepo.summary`. -/
def totalOf (count : List (Str × Nat)) : Nat := (count.map Prod.snd).sum

/-- The summary-related state of a `BookRepo` object: the per-directory
counter, the derived per-root counter and the derived total, each
`none` when not (yet) computed. -/
structure RepoState where
  count : Option (List (Str × Nat))
  sumcount : Option (List (Str × Nat))
  total : Option Nat
deriving DecidableEq

/-- Embeds `BookRepo.clear_summary`. -/
def clearSummary (_s : RepoState) : RepoState := ⟨none, none, none⟩

/-- The effect on the summary state of consuming a `find_books` scan
whose per-directory counts come out as `c`: `find_books` assigns a fresh
counter to `self.count` and leaves `sumcount` and `total` untouched. -/
def findBooksCounts (s : RepoState) (c : List (Str × Nat)) : RepoState :=
  { s with count := some c }

/-- Embeds `BookRepo.summary` (bookrepo.py): returns `False` when no
counter exists; otherwise derives `total` and `sumcount` when either is
missing, and returns `True`. -/
def summaryStep (s : RepoState) : RepoState × Bool :=
  match s.count with
  | none => (s, false)
  | some c =>
    if s.total = none ∨ s.sumcount = none then
      ({ s with total := some (totalOf c), sumcount := some (sumcountOf c) }, true)
    else (s, true)

theorem cget_cons (a : Str) (b : Nat) (m : List (Str × Nat)) (r : Str) :
    cget ((a, b) :: m) r = if a = r then b else cget m r := by
  by_cases h : a = r <;> simp [cget, List.find?_cons, h]

theorem cget_counterAdd (m : List (Str × Nat)) (k : Str) (v : Nat) (r : Str) :
    cget (counterAdd m k v) r = cget m r + (if r = k then v else 0) := by
  induction m with
  | nil =>
    by_cases h : k = r
    · subst h; simp [counterAdd, cget_cons, cget]
    · have h2 : ¬r = k := fun hh => h hh.symm
      simp [counterAdd, cget_cons, h, h2, cget]
  | cons p rest ih =>
    obtain ⟨k', v'⟩ := p
    by_cases hk : k' = k
    · subst hk
      by_cases hr : k' = r
      · subst hr; simp [counterAdd, cget_cons]
      · have h2 : ¬r = k' := fun hh => hr hh.symm
        simp [counterAdd, cget_cons, hr, h2]
    · by_cases hr : k' = r
      · have h2 : ¬r = k := fun hh => hk (hr.trans hh)
        simp [counterAdd, hk, cget_cons, hr, h2]
      · simp [counterAdd, hk, cget_cons, hr, ih]

theorem cget_foldl_counterAdd (r : Str) :
    ∀ (l : List (Str × Nat)) (acc : List (Str × Nat)),
      cget (l.foldl (fun acc p => counterAdd acc (splitHead p.1) p.2) acc) r
        = cget acc r + ((l.filter (fun p => splitHead p.1 == r)).map Prod.snd).sum := by
  intro l
  induction l with
  | nil => intro acc; simp
  | cons p rest ih =>
    intro acc
    rw [List.foldl_cons, ih]
    rw [cget_counterAdd]
    by_cases h : splitHead p.1 = r
    · have hb : (splitHead p.1 == r) = true := by simpa using h
      have h2 : r = splitHead p.1 := h.symm
      simp [List.filter_cons, hb, h2]
      omega
    · have hb : (splitHead p.1 == r) = false := by simpa using h
      have h2 : ¬r = splitHead p.1 := fun hh => h hh.symm
      simp [List.filter_cons, hb, h2]

/-- C9 counterexample: `find_books` installs a fresh per-directory
counter but does not invalidate the cached aggregates, so after a first
successful `summary()`, a second scan with different counts followed by
`summary()` again returns `True` while the cached per-root aggregate
(`1` for root `a`) differs from the sum of the current per-directory
counts (`2`).  The claim fails in that reachable state. -/
theorem summary_stale_counterexample :
    (summaryStep (findBooksCounts
        ((summaryStep (findBooksCounts (clearSummary ⟨none, none, none⟩)
          [(['a'], 1)])).1) [(['a'], 2)])).2 = true
    ∧ (summaryStep (findBooksCounts
        ((summaryStep (findBooksCounts (clearSummary ⟨none, none, none⟩)
          [(['a'], 1)])).1) [(['a'], 2)])).1.sumcount = some [(['a'], 1)]
    ∧ (summaryStep (findBooksCounts
        ((summaryStep (findBooksCounts (clearSummary ⟨none, none, none⟩)
          [(['a'], 1)])).1) [(['a'], 2)])).1.count = some [(['a'], 2)]
    ∧ cget [(['a'], 1)] ['a']
        ≠ (([(['a'], 2)].filter (fun p => splitHead p.1 == ['a'])).map Prod.snd).sum := by
  decide

/-- C9 (amended): whenever `summary()` actually derives the aggregates —
the per-directory counter is present and at least one of the cached
aggregates is missing, which holds in particular right after
`clear_summary()` or on a fresh object — it returns `True`, and the
derived per-root counter and grand total satisfy the invariant: for
every root, the aggregate equals the sum of the counts of all
directories whose first path component is that root, and the total
equals the sum of all per-directory counts.  If instead the cached
aggregates are reused after the counter was repopulated with different
counts, `summary()` still returns `True` but the invariant can fail. -/
theorem summary_fresh_invariant (s : RepoState) (c : List (Str × Nat)) (r : Str)
    (hc : s.count = some c) (hfresh : s.total = none ∨ s.sumcount = none) :
    (summaryStep s).2 = true
    ∧ (summaryStep s).1.sumcount = some (sumcountOf c)
    ∧ (summaryStep s).1.total = some (totalOf c)
    ∧ cget (sumcountOf c) r
        = ((c.filter (fun p => splitHead p.1 == r)).map Prod.snd).sum
    ∧ totalOf c = (c.map Prod.snd).sum := by
  refine ⟨?_, ?_, ?_, ?_, rfl⟩
  · simp [summaryStep, hc, hfresh]
  · simp [summaryStep, hc, hfresh]
  · simp [summaryStep, hc, hfresh]
  · have h := cget_foldl_counterAdd r c []
    simpa [sumcountOf, cget] using h

theorem summary_fresh_invariant_witness :
    (summaryStep ⟨some [(['a', '/', 'b'], 2), (['a'], 3)], none, none⟩).2 = true
    ∧ cget (sumcountOf [(['a', '/', 'b'], 2), (['a'], 3)]) ['a'] = 5 := by
  have h := summary_fresh_invariant ⟨some [(['a', '/', 'b'], 2), (['a'], 3)], none, none⟩
    [(['a', '/', 'b'], 2), (['a'], 3)] ['a'] rfl (Or.inl rfl)
  refine ⟨h.1, ?_⟩
  rw [h.2.2.2.1]
  decide

theorem deleteOne_append (d0 : Doc) (post : List Doc) :
    ∀ xs : List Doc, (∀ x ∈ xs, x.id ≠ d0.id) →
      Books.deleteOne (xs ++ d0 :: post) d0.id = xs ++ post := by
  intro xs
  induction xs with
  | nil => intro _; simp [Books.deleteOne]
  | cons x rest ih =>
    intro h
    have hx : x.id ≠ d0.id := h x (by simp)
    have hrest : ∀ y ∈ rest, y.id ≠ d0.id := fun y hy => h y (by simp [hy])
    simp [Books.deleteOne, hx, ih hrest]

theorem cleanupGo_noop (fs : FS) (dbDir : Str) (ch : Bool) :
    ∀ (todo : List Doc) (st : Store),
      (∀ d ∈ todo, fs.fileExists (Books.docpath dbDir d) = true
        ∧ (ch = true → (fs.hash (Books.docpath dbDir d)).isSome)) →
      Books.cleanupGo fs dbDir ch todo st = some (st, 0) := by
  intro todo
  induction todo with
  | nil => intro st _; rfl
  | cons d ds ih =>
    intro st h
    have hd := h d (by simp)
    have hds : ∀ x ∈ ds, fs.fileExists (Books.docpath dbDir x) = true
        ∧ (ch = true → (fs.hash (Books.docpath dbDir x)).isSome) :=
      fun x hx => h x (by simp [hx])
    have hex : ¬fs.fileExists (Books.docpath dbDir d) = false := by simp [hd.1]
    cases ch with
    | false => simp [Books.cleanupGo, hex, ih st hds]
    | true =>
      obtain ⟨hh, hhash⟩ := hd
      have := hhash rfl
      obtain ⟨v, hv⟩ := Option.isSome_iff_exists.mp this
      simp [Books.cleanupGo, hex, hv, ih st hds]

theorem cleanupGo_remove_one (fs : FS) (dbDir : Str) (d0 : Doc) (post : List Doc)
    (hmiss : fs.fileExists (Books.docpath dbDir d0) = false)
    (hpost : ∀ d ∈ post, fs.fileExists (Books.docpath dbDir d) = true) :
    ∀ (pre : List Doc) (st : Store) (xs : List Doc),
      st.docs = xs ++ pre ++ d0 :: post →
      (∀ x, (x ∈ xs ∨ x ∈ pre) → x.id ≠ d0.id) →
      (∀ d ∈ pre, fs.fileExists (Books.docpath dbDir d) = true) →
      Books.cleanupGo fs dbDir false (pre ++ d0 :: post) st
        = some ({ st with docs := xs ++ pre ++ post }, 1) := by
  intro pre
  induction pre with
  | nil =>
    intro st xs hdocs hids _
    have hxs : ∀ x ∈ xs, x.id ≠ d0.id := fun x hx => hids x (Or.inl hx)
    have hdel : Books.deleteOne st.docs d0.id = xs ++ post := by
      rw [hdocs]; simpa using deleteOne_append d0 post xs hxs
    have hnoop := cleanupGo_noop fs dbDir false post
      { st with docs := Books.deleteOne st.docs d0.id }
      (fun d hd => ⟨hpost d hd, by intro hh; cases hh⟩)
    simp only [List.nil_append, Books.cleanupGo, hmiss, if_pos rfl, hnoop]
    simp [hdel]
  | cons p pre' ih =>
    intro st xs hdocs hids hpre
    have hp : fs.fileExists (Books.docpath dbDir p) = true := hpre p (by simp)
    have hpne : ¬fs.fileExists (Books.docpath dbDir p) = false := by simp [hp]
    have hdocs' : st.docs = (xs ++ [p]) ++ pre' ++ d0 :: post := by
      rw [hdocs]; simp
    have hids' : ∀ x, (x ∈ xs ++ [p] ∨ x ∈ pre') → x.id ≠ d0.id := by
      intro x hx
      rcases hx with hx | hx
      · rcases List.mem_append.mp hx with hx | hx
        · exact hids x (Or.inl hx)
        · have : x = p := by simpa using hx
          subst this
          exact hids x (Or.inr (by simp))
      · exact hids x (Or.inr (by simp [hx]))
    have hpre' : ∀ d ∈ pre', fs.fileExists (Books.docpath dbDir d) = true :=
      fun d hd => hpre d (by simp [hd])
    have hrec := ih st (xs ++ [p]) hdocs' hids' hpre'
    have hstep : Books.cleanupGo fs dbDir false ((p :: pre') ++ d0 :: post) st
        = Books.cleanupGo fs dbDir false (pre' ++ d0 :: post) st := by
      simp [Books.cleanupGo, hp]
    rw [hstep, hrec]
    simp

/-- C2: cleanup removes exactly the stale document.  For every store
with distinct document ids, if exactly one document's backing file is
missing at the path reconstructed from its `(directory, escapedTitle,
type)` and every other document's file exists, then `cleanup()` (with
`check_hash` false, its default) deletes exactly that document, retains
all others in order, and the document count decreases by exactly one. -/
theorem cleanup_removes_exactly_missing (fs : FS) (dbDir : Str) (st : Store)
    (pre post : List Doc) (d0 : Doc)
    (hdocs : st.docs = pre ++ d0 :: post)
    (hids : (st.docs.map Doc.id).Nodup)
    (hmiss : fs.fileExists (Books.docpath dbDir d0) = false)
    (hpre : ∀ d ∈ pre, fs.fileExists (Books.docpath dbDir d) = true)
    (hpost : ∀ d ∈ post, fs.fileExists (Books.docpath dbDir d) = true) :
    Books.cleanup fs dbDir false st = some ({ st with docs := pre ++ post }, 1)
    ∧ (pre ++ post).length + 1 = st.docs.length := by
  have hids2 : (List.map Doc.id (pre ++ d0 :: post)).Nodup := by
    rw [← hdocs]; exact hids
  rw [List.map_append] at hids2
  have hpredistinct : ∀ x, (x ∈ ([] : List Doc) ∨ x ∈ pre) → x.id ≠ d0.id := by
    intro x hx heq
    rcases hx with hx | hx
    · cases hx
    · have hmem : x.id ∈ List.map Doc.id pre := List.mem_map_of_mem Doc.id hx
      have hdisj := (List.nodup_append.mp hids2).2.2
      exact hdisj hmem (by simp [heq])
  constructor
  · have h := cleanupGo_remove_one fs dbDir d0 post hmiss hpost pre st []
      (by simpa using hdocs) hpredistinct hpre
    unfold Books.cleanup
    rw [hdocs]
    simpa using h
  · rw [hdocs]
    simp only [List.length_append, List.length_cons]
    omega

theorem cleanup_removes_exactly_missing_witness :
    Books.cleanup
        ⟨fun _ => none, fun p => p == ['d', '/', 't', '.', 'y'], fun _ => none⟩ [] false
        ⟨[⟨0, ['t'], ['y'], ['d'], 1, 1, some 7⟩, ⟨1, ['u'], ['y'], ['d'], 1, 1, some 8⟩], 2⟩
      = some (⟨[⟨0, ['t'], ['y'], ['d'], 1, 1, some 7⟩], 2⟩, 1) := by
  have h := cleanup_removes_exactly_missing
    ⟨fun _ => none, fun p => p == ['d', '/', 't', '.', 'y'], fun _ => none⟩ []
    ⟨[⟨0, ['t'], ['y'], ['d'], 1, 1, some 7⟩, ⟨1, ['u'], ['y'], ['d'], 1, 1, some 8⟩], 2⟩
    [⟨0, ['t'], ['y'], ['d'], 1, 1, some 7⟩] [] ⟨1, ['u'], ['y'], ['d'], 1, 1, some 8⟩
    rfl (by decide) (by decide) (by decide) (by decide)
  exact h.1

/-- C7: cleanup with hash checking is read-only on live documents.  For
every store all of whose documents have an existing, readable backing
file, `cleanup(check_hash=True)` performs no deletion and returns the
store completely unchanged: a hash mismatch is only reported, never
written back. -/
theorem cleanup_checkhash_read_only (fs : FS) (dbDir : Str) (st : Store)
    (hex : ∀ d ∈ st.docs, fs.fileExists (Books.docpath dbDir d) = true)
    (hh : ∀ d ∈ st.docs, (fs.hash (Books.docpath dbDir d)).isSome = true) :
    Books.cleanup fs dbDir true st = some (st, 0) := by
  unfold Books.cleanup
  exact cleanupGo_noop fs dbDir true st.docs st (fun d hd => ⟨hex d hd, fun _ => hh d hd⟩)

theorem cleanup_checkhash_read_only_witness :
    Books.cleanup ⟨fun _ => none, fun _ => true, fun _ => some 99⟩ [] true
        ⟨[⟨0, ['t'], ['y'], ['d'], 1, 1, some 7⟩], 1⟩
      = some (⟨[⟨0, ['t'], ['y'], ['d'], 1, 1, some 7⟩], 1⟩, 0) :=
  cleanup_checkhash_read_only ⟨fun _ => none, fun _ => true, fun _ => some 99⟩ []
    ⟨[⟨0, ['t'], ['y'], ['d'], 1, 1, some 7⟩], 1⟩ (by decide) (by decide)

/-- C10: `checkNew()` can remove documents.  When an existing document
matches a scanned item's `(title, type)` and directory but `os.stat` of
the item's path fails, the update path of `checkNew()` deletes that
document: the run ends with the document removed, one `delete_one`
executed and no insertion attempted (the `updated` flag is set even
though the document was removed). -/
theorem checknew_removes_on_stat_failure (fs : FS) (dbDir : Str) (item : Item)
    (d : Doc) (n : Nat)
    (h1 : d.title = item.title) (h2 : d.type = item.type) (h3 : d.directory = item.dir)
    (hs : fs.stat (Books.itemPath dbDir item) = none) :
    Books.checknew fs dbDir [item] ⟨[d], n⟩ = some (⟨[], n⟩, ⟨0, 0, 1⟩) := by
  simp [Books.checknew, Books.processItem, Books.updateLoop, Books.update,
        Books.deleteOne, h1, h2, h3, hs]

theorem checknew_removes_on_stat_failure_witness :
    Books.checknew ⟨fun _ => none, fun _ => false, fun _ => none⟩ []
        [⟨['d'], ['t'], ['y'], 1, 1, ['p']⟩]
        ⟨[⟨0, ['t'], ['y'], ['d'], 1, 1, some 7⟩], 1⟩
      = some (⟨[], 1⟩, ⟨0, 0, 1⟩) :=
  checknew_removes_on_stat_failure ⟨fun _ => none, fun _ => false, fun _ => none⟩ []
    ⟨['d'], ['t'], ['y'], 1, 1, ['p']⟩ ⟨0, ['t'], ['y'], ['d'], 1, 1, some 7⟩ 1
    (by decide) rfl rfl rfl

theorem updateLoop_no_dir_match (fs : FS) (dbDir : Str) (item : Item) (st : Store) :
    ∀ todo : List Doc, (∀ d ∈ todo, d.directory ≠ item.dir) →
      Books.updateLoop fs dbDir item st todo = some (st, ⟨0, 0, 0⟩, false) := by
  intro todo
  induction todo with
  | nil => intro _; rfl
  | cons d ds ih =>
    intro h
    have hd : d.directory ≠ item.dir := h d (by simp)
    have hds : ∀ x ∈ ds, x.directory ≠ item.dir := fun x hx => h x (by simp [hx])
    simp [Books.updateLoop, hd, ih hds]

/-- C6 counterexample: a hashing failure during an update aborts the
whole `checkNew()` pass, and a hashing failure during cleanup's hash
check aborts the whole cleanup pass.  Concretely: the store holds one
document matching the scanned item with a stale size; `os.stat`
succeeds, so the update path recomputes the hash, whose `OSError`
propagates out of `checknew` (result `none` — the pass does not
continue).  Likewise a readable-check pass with `check_hash=True` over
an existing but unreadable file returns `none`. -/
theorem hashing_failure_counterexample :
    Books.checknew
        ⟨fun p => if p == ['p'] then some (1, 1) else none, fun _ => true, fun _ => none⟩
        [] [⟨['d'], ['t'], ['y'], 1, 1, ['p']⟩]
        ⟨[⟨0, ['t'], ['y'], ['d'], 2, 1, some 5⟩], 1⟩ = none
    ∧ Books.cleanup ⟨fun _ => none, fun _ => true, fun _ => none⟩ [] true
        ⟨[⟨0, ['t'], ['y'], ['d'], 1, 1, some 5⟩], 1⟩ = none := by
  constructor
  · rfl
  · rfl

/-- C6 (amended): only the insertion path catches hashing failures.  A
hashing failure during insertion abandons that single insertion and the
pass continues with the remaining records and an unchanged store; but a
hashing failure during an update (stale size/mtime, `os.stat`
succeeded) aborts the entire `checkNew()` pass, and a hashing failure
during cleanup's hash verification (file exists, `check_hash=True`)
aborts the entire cleanup pass. -/
theorem hashing_failure_scope (fs : FS) (dbDir : Str) :
    (∀ (st : Store) (item : Item) (rest : List Item),
      fs.hash (Books.itemPath dbDir item) = none →
      (∀ d ∈ st.docs, d.directory ≠ item.dir) →
      Books.checknew fs dbDir (item :: rest) st = Books.checknew fs dbDir rest st)
    ∧ (∀ (n : Nat) (item : Item) (d : Doc) (rest : List Item),
      d.title = item.title → d.type = item.type → d.directory = item.dir →
      fs.stat (Books.itemPath dbDir item) = some (item.size, item.mtime) →
      d.size ≠ item.size →
      fs.hash (Books.itemPath dbDir item) = none →
      Books.checknew fs dbDir (item :: rest) ⟨[d], n⟩ = none)
    ∧ (∀ (d : Doc) (ds : List Doc) (n : Nat),
      fs.fileExists (Books.docpath dbDir d) = true →
      fs.hash (Books.docpath dbDir d) = none →
      Books.cleanup fs dbDir true ⟨d :: ds, n⟩ = none) := by
  refine ⟨?_, ?_, ?_⟩
  · intro st item rest hh hnd
    have hfilter : ∀ d ∈ st.docs.filter
        (fun d => d.title == item.title && d.type == item.type),
        d.directory ≠ item.dir := by
      intro d hd
      exact hnd d (List.mem_of_mem_filter hd)
    have hloop := updateLoop_no_dir_match fs dbDir item st _ hfilter
    have hproc : Books.processItem fs dbDir st item = some (st, ⟨0, 0, 0⟩) := by
      simp [Books.processItem, hloop, Books.insert, hh]
    cases hrest : Books.checknew fs dbDir rest st with
    | none => simp [Books.checknew, hproc, hrest]
    | some r => simp [Books.checknew, hproc, hrest]
  · intro n item d rest h1 h2 h3 hstat hsz hh
    have hne : d.size ≠ item.size ∨ d.mtime ≠ item.mtime := Or.inl hsz
    simp [Books.checknew, Books.processItem, Books.updateLoop, Books.update,
          h1, h2, h3, hstat, hsz, hh]
  · intro d ds n hex hh
    have hexne : ¬fs.fileExists (Books.docpath dbDir d) = false := by simp [hex]
    simp [Books.cleanup, Books.cleanupGo, hexne, hh]

theorem hashing_failure_scope_witness :
    Books.checknew ⟨fun _ => some (1, 1), fun _ => true, fun _ => none⟩ []
        [⟨['d'], ['t'], ['y'], 1, 1, ['p']⟩] ⟨[], 0⟩
      = Books.checknew ⟨fun _ => some (1, 1), fun _ => true, fun _ => none⟩ [] [] ⟨[], 0⟩
    ∧ Books.checknew ⟨fun _ => some (1, 1), fun _ => true, fun _ => none⟩ []
        [⟨['d'], ['t'], ['y'], 1, 1, ['p']⟩] ⟨[⟨0, ['t'], ['y'], ['d'], 2, 1, some 5⟩], 1⟩
      = none
    ∧ Books.cleanup ⟨fun _ => some (1, 1), fun _ => true, fun _ => none⟩ [] true
        ⟨[⟨0, ['t'], ['y'], ['d'], 1, 1, some 5⟩], 1⟩ = none := by
  refine ⟨?_, ?_, ?_⟩
  · exact (hashing_failure_scope ⟨fun _ => some (1, 1), fun _ => true, fun _ => none⟩ []).1
      ⟨[], 0⟩ ⟨['d'], ['t'], ['y'], 1, 1, ['p']⟩ [] rfl (by decide)
  · exact (hashing_failure_scope ⟨fun _ => some (1, 1), fun _ => true, fun _ => none⟩ []).2.1
      1 ⟨['d'], ['t'], ['y'], 1, 1, ['p']⟩ ⟨0, ['t'], ['y'], ['d'], 2, 1, some 5⟩ []
      (by decide) rfl rfl rfl (by decide) rfl
  · exact (hashing_failure_scope ⟨fun _ => some (1, 1), fun _ => true, fun _ => none⟩ []).2.2
      ⟨0, ['t'], ['y'], ['d'], 1, 1, some 5⟩ [] 1 rfl rfl

/-- C5: directory-scoped identity.  Scanning two files with identical
title and type in different directories inserts two distinct documents,
one per directory, neither overwriting the other: the update path is
taken only for an existing document whose directory equals the record's
directory (here it is not, so the second record's matching cursor is
skipped) and a new document is inserted instead.  Run on an empty store,
the pass ends with exactly two documents and two insertions. -/
theorem checknew_directory_scoped (fs : FS) (dbDir : Str) (i1 i2 : Item) (h1 h2 : Nat)
    (ht : i1.title = i2.title) (hy : i1.type = i2.type) (hd : i1.dir ≠ i2.dir)
    (hh1 : fs.hash (Books.itemPath dbDir i1) = some h1)
    (hh2 : fs.hash (Books.itemPath dbDir i2) = some h2) :
    Books.checknew fs dbDir [i1, i2] ⟨[], 0⟩ =
      some (⟨[⟨0, i1.title, i1.type, i1.dir, i1.size, i1.mtime, some h1⟩,
              ⟨1, i2.title, i2.type, i2.dir, i2.size, i2.mtime, some h2⟩], 2⟩,
            ⟨2, 0, 0⟩) := by
  simp [Books.checknew, Books.processItem, Books.updateLoop, Books.insert,
        ht, hy, hd, hh1, hh2]

theorem checknew_directory_scoped_witness :
    Books.checknew ⟨fun _ => none, fun _ => true, fun _ => some 5⟩ []
        [⟨['d'], ['t'], ['y'], 1, 1, ['p']⟩, ⟨['e'], ['t'], ['y'], 2, 2, ['q']⟩] ⟨[], 0⟩
      = some (⟨[⟨0, ['t'], ['y'], ['d'], 1, 1, some 5⟩,
                ⟨1, ['t'], ['y'], ['e'], 2, 2, some 5⟩], 2⟩,
              ⟨2, 0, 0⟩) :=
  checknew_directory_scoped ⟨fun _ => none, fun _ => true, fun _ => some 5⟩ []
    ⟨['d'], ['t'], ['y'], 1, 1, ['p']⟩ ⟨['e'], ['t'], ['y'], 2, 2, ['q']⟩ 5 5
    rfl rfl (by decide) rfl rfl

/-- A document matches a scanned item's reconciliation key
`(title, type)` and its directory. -/
def fullMatch (item : Item) (d : Doc) : Prop :=
  d.title = item.title ∧ d.type = item.type ∧ d.directory = item.dir

/-- The document agrees with the scanned item's size and mtime and its
hash has been computed. -/
def cleanDoc (item : Item) (d : Doc) : Prop :=
  d.size = item.size ∧ d.mtime = item.mtime ∧ d.hash.isSome = true

/-- Pointwise relation between a store's documents before and after part
of a reconciliation step for `item`: the id and the identity fields are
preserved, and each document is either untouched or has been rewritten
into a clean full match of the processed item. -/
def updRel (item : Item) (a b : Doc) : Prop :=
  b.id = a.id ∧ b.title = a.title ∧ b.type = a.type ∧ b.directory = a.directory
  ∧ (b = a ∨ (fullMatch item b ∧ cleanDoc item b))

/-- After a completed pass the store is clean for an item: every full
match carries the item's size and mtime and a computed hash, and if no
full match exists at all then the item's file is unreadable, so a
retried insertion is abandoned again. -/
def cleanForProp (fs : FS) (dbDir : Str) (item : Item) (st : Store) : Prop :=
  (∀ d ∈ st.docs, fullMatch item d → cleanDoc item d)
  ∧ ((∀ d ∈ st.docs, ¬fullMatch item d) → fs.hash (Books.itemPath dbDir item) = none)

/-- Store well-formedness: document ids are distinct and below the next
fresh id. -/
def WFStore (st : Store) : Prop :=
  (st.docs.map Doc.id).Nodup ∧ ∀ d ∈ st.docs, d.id < st.nextId

theorem updRel_refl (item : Item) (x : Doc) : updRel item x x :=
  ⟨rfl, rfl, rfl, rfl, Or.inl rfl⟩

theorem updRel_trans (item : Item) (a b c : Doc)
    (h1 : updRel item a b) (h2 : updRel item b c) : updRel item a c := by
  obtain ⟨i1, t1, y1, d1, e1⟩ := h1
  obtain ⟨i2, t2, y2, d2, e2⟩ := h2
  refine ⟨i2.trans i1, t2.trans t1, y2.trans y1, d2.trans d1, ?_⟩
  rcases e2 with rfl | hc
  · exact e1
  · exact Or.inr hc

theorem forall₂_updRel_trans (item : Item) :
    ∀ {l1 l2 l3 : List Doc}, List.Forall₂ (updRel item) l1 l2 →
      List.Forall₂ (updRel item) l2 l3 → List.Forall₂ (updRel item) l1 l3 := by
  intro l1 l2 l3 h12
  induction h12 generalizing l3 with
  | nil => intro h23; cases h23; exact List.Forall₂.nil
  | cons hab h ih =>
    intro h23
    cases h23 with
    | cons hbc h' => exact List.Forall₂.cons (updRel_trans _ _ _ _ hab hbc) (ih h')

theorem forall₂_mem_right {R : Doc → Doc → Prop} :
    ∀ {l l' : List Doc}, List.Forall₂ R l l' → ∀ d' ∈ l', ∃ d ∈ l, R d d' := by
  intro l l' h
  induction h with
  | nil => intro d' hd'; simp at hd'
  | cons hab h ih =>
    intro d' hd'
    rcases List.mem_cons.mp hd' with rfl | hd2
    · exact ⟨_, by simp, hab⟩
    · obtain ⟨d, hd, hr⟩ := ih d' hd2
      exact ⟨d, by simp [hd], hr⟩

theorem forall₂_mem_left {R : Doc → Doc → Prop} :
    ∀ {l l' : List Doc}, List.Forall₂ R l l' → ∀ d ∈ l, ∃ d' ∈ l', R d d' := by
  intro l l' h
  induction h with
  | nil => intro d hd; simp at hd
  | cons hab h ih =>
    intro d hd
    rcases List.mem_cons.mp hd with rfl | hd2
    · exact ⟨_, by simp, hab⟩
    · obtain ⟨d', hd', hr⟩ := ih d hd2
      exact ⟨d', by simp [hd'], hr⟩

theorem forall₂_updRel_map_id (item : Item) :
    ∀ {l l' : List Doc}, List.Forall₂ (updRel item) l l' →
      l'.map Doc.id = l.map Doc.id := by
  intro l l' h
  induction h with
  | nil => rfl
  | cons hab h ih => simp [ih, hab.1]

theorem updateOne_map_id (g : Doc → Doc) (hg : ∀ x, (g x).id = x.id) :
    ∀ (ds : List Doc) (i : Nat),
      (Books.updateOne ds i g).map Doc.id = ds.map Doc.id := by
  intro ds
  induction ds with
  | nil => intro i; rfl
  | cons d rest ih =>
    intro i
    by_cases h : d.id = i
    · simp [Books.updateOne, h, hg]
    · simp [Books.updateOne, h, ih]

theorem mem_updateOne_of_ne (g : Doc → Doc) :
    ∀ (ds : List Doc) (i : Nat) (x : Doc), x ∈ ds → x.id ≠ i →
      x ∈ Books.updateOne ds i g := by
  intro ds
  induction ds with
  | nil => intro i x hx; simp at hx
  | cons d rest ih =>
    intro i x hx hne
    by_cases h : d.id = i
    · rcases List.mem_cons.mp hx with rfl | hx2
      · exact absurd h hne
      · simp [Books.updateOne, h, hx2]
    · rcases List.mem_cons.mp hx with rfl | hx2
      · simp [Books.updateOne, h]
      · simp [Books.updateOne, h, ih i x hx2 hne]

theorem updateOne_forall₂ (item : Item) (g : Doc → Doc) (i : Nat) :
    ∀ ds : List Doc, (∀ x ∈ ds, x.id = i → updRel item x (g x)) →
      List.Forall₂ (updRel item) ds (Books.updateOne ds i g) := by
  intro ds
  induction ds with
  | nil => intro _; exact List.Forall₂.nil
  | cons d rest ih =>
    intro h
    by_cases hd : d.id = i
    · have h1 : updRel item d (g d) := h d (by simp) hd
      have h2 : List.Forall₂ (updRel item) rest rest :=
        List.forall₂_same.mpr (fun x _ => updRel_refl item x)
      simpa [Books.updateOne, hd] using List.Forall₂.cons h1 h2
    · have h2 := ih (fun x hx hxi => h x (by simp [hx]) hxi)
      simpa [Books.updateOne, hd] using List.Forall₂.cons (updRel_refl item d) h2

theorem updateOne_mem_id (g : Doc → Doc) :
    ∀ ds : List Doc, (ds.map Doc.id).Nodup → ∀ (i : Nat) (d' : Doc),
      d' ∈ Books.updateOne ds i g → d'.id = i →
      ∃ x ∈ ds, x.id = i ∧ d' = g x := by
  intro ds
  induction ds with
  | nil => intro _ i d' hd'; simp [Books.updateOne] at hd'
  | cons d rest ih =>
    intro hnd i d' hd' hid
    rw [List.map_cons] at hnd
    have hnd2 : d.id ∉ rest.map Doc.id ∧ (rest.map Doc.id).Nodup :=
      List.nodup_cons.mp hnd
    by_cases h : d.id = i
    · rw [show Books.updateOne (d :: rest) i g = g d :: rest by simp [Books.updateOne, h]] at hd'
      rcases List.mem_cons.mp hd' with rfl | hd2
      · exact ⟨d, by simp, h, rfl⟩
      · exfalso
        have : d'.id ∈ rest.map Doc.id := List.mem_map_of_mem Doc.id hd2
        rw [hid, ← h] at this
        exact hnd2.1 this
    · rw [show Books.updateOne (d :: rest) i g = d :: Books.updateOne rest i g by
        simp [Books.updateOne, h]] at hd'
      rcases List.mem_cons.mp hd' with rfl | hd2
      · exact absurd hid h
      · obtain ⟨x, hx, hxi, hgx⟩ := ih hnd2.2 i d' hd2 hid
        exact ⟨x, by simp [hx], hxi, hgx⟩

theorem update_spec (fs : FS) (dbDir : Str) (item : Item) (st : Store) (d : Doc)
    (hstat : fs.stat (Books.itemPath dbDir item) = some (item.size, item.mtime))
    (hmem : d ∈ st.docs) (hids : (st.docs.map Doc.id).Nodup)
    (ht : d.title = item.title) (hy : d.type = item.type) (hdir : d.directory = item.dir)
    (st₂ : Store) (u r : Nat)
    (hupd : Books.update fs dbDir st d item = some (st₂, u, r)) :
    r = 0 ∧ st₂.nextId = st.nextId
    ∧ st₂.docs.map Doc.id = st.docs.map Doc.id
    ∧ List.Forall₂ (updRel item) st.docs st₂.docs
    ∧ (∀ d' ∈ st₂.docs, d'.id = d.id → cleanDoc item d')
    ∧ (∀ x ∈ st.docs, x.id ≠ d.id → x ∈ st₂.docs) := by
  have hpin : ∀ x ∈ st.docs, x.id = d.id → x = d :=
    fun x hx hxe => List.inj_on_of_nodup_map hids hx hmem hxe
  by_cases hne : d.size ≠ item.size ∨ d.mtime ≠ item.mtime
  · cases hh : fs.hash (Books.itemPath dbDir item) with
    | none =>
      have : Books.update fs dbDir st d item = none := by
        simp [Books.update, hstat, hne, hh]
      rw [this] at hupd
      cases hupd
    | some hv =>
      have heval : Books.update fs dbDir st d item
          = some (⟨Books.updateOne st.docs d.id
              (fun x => ⟨x.id, x.title, x.type, x.directory, item.size, item.mtime, some hv⟩),
            st.nextId⟩, 1, 0) := by
        simp [Books.update, hstat, hne, hh]
      rw [heval] at hupd
      simp only [Option.some.injEq, Prod.mk.injEq] at hupd
      obtain ⟨h1, h2, h3⟩ := hupd
      subst h1; subst h2; subst h3
      refine ⟨rfl, rfl, ?_, ?_, ?_, ?_⟩
      · exact updateOne_map_id (fun x => ⟨x.id, x.title, x.type, x.directory, item.size, item.mtime, some hv⟩) (fun x => rfl) st.docs d.id
      · apply updateOne_forall₂
        intro x hx hxe
        have hxd := hpin x hx hxe
        subst hxd
        exact ⟨rfl, rfl, rfl, rfl, Or.inr ⟨⟨ht, hy, hdir⟩, rfl, rfl, rfl⟩⟩
      · intro d' hd' hide
        obtain ⟨x, hx, hxe, hgx⟩ := updateOne_mem_id _ st.docs hids d.id d' hd' hide
        subst hgx
        exact ⟨rfl, rfl, rfl⟩
      · intro x hx hne2
        exact mem_updateOne_of_ne _ st.docs d.id x hx hne2
  · push_neg at hne
    obtain ⟨hsz, hmt⟩ := hne
    by_cases hhn : d.hash = none
    · cases hh : fs.hash (Books.itemPath dbDir item) with
      | none =>
        have : Books.update fs dbDir st d item = none := by
          simp [Books.update, hstat, hsz, hmt, hhn, hh]
        rw [this] at hupd
        cases hupd
      | some hv =>
        have heval : Books.update fs dbDir st d item
            = some (⟨Books.updateOne st.docs d.id
                (fun x => ⟨x.id, x.title, x.type, x.directory, x.size, x.mtime, some hv⟩),
              st.nextId⟩, 1, 0) := by
          simp [Books.update, hstat, hsz, hmt, hhn, hh]
        rw [heval] at hupd
        simp only [Option.some.injEq, Prod.mk.injEq] at hupd
        obtain ⟨h1, h2, h3⟩ := hupd
        subst h1; subst h2; subst h3
        refine ⟨rfl, rfl, ?_, ?_, ?_, ?_⟩
        · exact updateOne_map_id (fun x => ⟨x.id, x.title, x.type, x.directory, x.size, x.mtime, some hv⟩) (fun x => rfl) st.docs d.id
        · apply updateOne_forall₂
          intro x hx hxe
          have hxd := hpin x hx hxe
          subst hxd
          exact ⟨rfl, rfl, rfl, rfl,
            Or.inr ⟨⟨ht, hy, hdir⟩, hsz, hmt, rfl⟩⟩
        · intro d' hd' hide
          obtain ⟨x, hx, hxe, hgx⟩ := updateOne_mem_id _ st.docs hids d.id d' hd' hide
          have hxd := hpin x hx hxe
          subst hxd
          subst hgx
          exact ⟨hsz, hmt, rfl⟩
        · intro x hx hne2
          exact mem_updateOne_of_ne _ st.docs d.id x hx hne2
    · have heval : Books.update fs dbDir st d item = some (st, 0, 0) := by
        simp [Books.update, hstat, hsz, hmt, hhn]
      rw [heval] at hupd
      simp only [Option.some.injEq, Prod.mk.injEq] at hupd
      obtain ⟨h1, h2, h3⟩ := hupd
      subst h1; subst h2; subst h3
      refine ⟨rfl, rfl, rfl, ?_, ?_, fun x hx _ => hx⟩
      · exact List.forall₂_same.mpr (fun x _ => updRel_refl item x)
      · intro d' hd' hide
        have hxd := hpin d' hd' hide
        subst hxd
        exact ⟨hsz, hmt, Option.isSome_iff_ne_none.mpr hhn⟩

theorem updateLoop_spec (fs : FS) (dbDir : Str) (item : Item)
    (hstat : fs.stat (Books.itemPath dbDir item) = some (item.size, item.mtime)) :
    ∀ (todo : List Doc) (st st' : Store) (c : Counts) (b : Bool),
      (st.docs.map Doc.id).Nodup →
      (∀ d ∈ todo, d ∈ st.docs) →
      (todo.map Doc.id).Nodup →
      (∀ d ∈ todo, d.title = item.title ∧ d.type = item.type) →
      Books.updateLoop fs dbDir item st todo = some (st', c, b) →
      (st'.nextId = st.nextId
        ∧ c.ins = 0 ∧ c.rem = 0
        ∧ List.Forall₂ (updRel item) st.docs st'.docs
        ∧ (∀ d ∈ todo, d.directory = item.dir →
            ∀ d' ∈ st'.docs, d'.id = d.id → cleanDoc item d')
        ∧ (b = false → st' = st ∧ c = ⟨0, 0, 0⟩ ∧ ∀ d ∈ todo, d.directory ≠ item.dir)
        ∧ (b = true → ∃ d ∈ todo, d.directory = item.dir)) := by
  intro todo
  induction todo with
  | nil =>
    intro st st' c b hids hsub htid hkey hloop
    simp only [Books.updateLoop, Option.some.injEq, Prod.mk.injEq] at hloop
    obtain ⟨h1, h2, h3⟩ := hloop
    subst h1; subst h2; subst h3
    refine ⟨rfl, rfl, rfl, List.forall₂_same.mpr (fun x _ => updRel_refl item x),
      ?_, ?_, ?_⟩
    · intro e he; simp at he
    · intro _; exact ⟨rfl, rfl, fun e he => by simp at he⟩
    · intro h; simp at h
  | cons d ds ih =>
    intro st st' c b hids hsub htid hkey hloop
    have htid2 : d.id ∉ ds.map Doc.id ∧ (ds.map Doc.id).Nodup := by
      rw [List.map_cons] at htid
      exact List.nodup_cons.mp htid
    by_cases hdir : d.directory = item.dir
    · cases hu : Books.update fs dbDir st d item with
      | none =>
        rw [show Books.updateLoop fs dbDir item st (d :: ds) = none from by
          simp [Books.updateLoop, hdir, hu]] at hloop
        cases hloop
      | some res =>
        obtain ⟨stm, u, r⟩ := res
        cases hl : Books.updateLoop fs dbDir item stm ds with
        | none =>
          rw [show Books.updateLoop fs dbDir item st (d :: ds) = none from by
            simp [Books.updateLoop, hdir, hu, hl]] at hloop
          cases hloop
        | some res2 =>
          obtain ⟨st₃, c', b'⟩ := res2
          rw [show Books.updateLoop fs dbDir item st (d :: ds)
              = some (st₃, ⟨c'.ins, u + c'.upd, r + c'.rem⟩, true) from by
            simp [Books.updateLoop, hdir, hu, hl]] at hloop
          simp only [Option.some.injEq, Prod.mk.injEq] at hloop
          obtain ⟨h1, h2, h3⟩ := hloop
          subst h1; subst h2; subst h3
          obtain ⟨hu0, hunext, humap, huf2, huclean, humem⟩ :=
            update_spec fs dbDir item st d hstat (hsub d (by simp)) hids
              (hkey d (by simp)).1 (hkey d (by simp)).2 hdir stm u r hu
          have hids2 : (stm.docs.map Doc.id).Nodup := by rw [humap]; exact hids
          have hsub2 : ∀ x ∈ ds, x ∈ stm.docs := by
            intro x hx
            refine humem x (hsub x (by simp [hx])) ?_
            intro hxe
            exact htid2.1 (hxe ▸ List.mem_map_of_mem Doc.id hx)
          have hkey2 : ∀ x ∈ ds, x.title = item.title ∧ x.type = item.type :=
            fun x hx => hkey x (by simp [hx])
          obtain ⟨inext, iins, irem, if2, iclean, ibf, ibt⟩ :=
            ih stm st₃ c' b' hids2 hsub2 htid2.2 hkey2 hl
          refine ⟨inext.trans hunext, iins, ?_,
            forall₂_updRel_trans item huf2 if2, ?_, ?_, ?_⟩
          · show r + c'.rem = 0
            omega
          · intro e he hedir d' hd' hide
            rcases List.mem_cons.mp he with rfl | he2
            · obtain ⟨y, hy2, hrel⟩ := forall₂_mem_right if2 d' hd'
              have hyid : y.id = e.id := by rw [← hrel.1, hide]
              have hyclean := huclean y hy2 hyid
              rcases hrel.2.2.2.2 with heq | hfc
              · rw [heq]; exact hyclean
              · exact hfc.2
            · exact iclean e he2 hedir d' hd' hide
          · intro hb; simp at hb
          · intro _; exact ⟨d, by simp, hdir⟩
    · rw [show Books.updateLoop fs dbDir item st (d :: ds)
          = Books.updateLoop fs dbDir item st ds from by
        simp [Books.updateLoop, hdir]] at hloop
      have hsub2 : ∀ x ∈ ds, x ∈ st.docs := fun x hx => hsub x (by simp [hx])
      have hkey2 : ∀ x ∈ ds, x.title = item.title ∧ x.type = item.type :=
        fun x hx => hkey x (by simp [hx])
      obtain ⟨inext, iins, irem, if2, iclean, ibf, ibt⟩ :=
        ih st st' c b hids hsub2 htid2.2 hkey2 hloop
      refine ⟨inext, iins, irem, if2, ?_, ?_, ?_⟩
      · intro e he hedir d' hd' hide
        rcases List.mem_cons.mp he with rfl | he2
        · exact absurd hedir hdir
        · exact iclean e he2 hedir d' hd' hide
      · intro hb
        obtain ⟨h1, h2, h3⟩ := ibf hb
        refine ⟨h1, h2, ?_⟩
        intro e he
        rcases List.mem_cons.mp he with rfl | he2
        · exact hdir
        · exact h3 e he2
      · intro hb
        obtain ⟨e, he, hedir⟩ := ibt hb
        exact ⟨e, by simp [he], hedir⟩

theorem filter_matches_nodup (item : Item) (st : Store)
    (hids : (st.docs.map Doc.id).Nodup) :
    ((st.docs.filter
        (fun d => d.title == item.title && d.type == item.type)).map Doc.id).Nodup := by
  have hsub : List.Sublist
      (st.docs.filter (fun d => d.title == item.title && d.type == item.type))
      st.docs := List.filter_sublist _
  exact (hsub.map Doc.id).nodup hids

theorem mem_filter_matches (item : Item) (st : Store) (x : Doc) (hx : x ∈ st.docs)
    (hf : fullMatch item x) :
    x ∈ st.docs.filter (fun d => d.title == item.title && d.type == item.type) := by
  refine List.mem_filter.mpr ⟨hx, ?_⟩
  simp [hf.1, hf.2.1]

theorem processItem_establishes (fs : FS) (dbDir : Str) (item : Item)
    (st st' : Store) (c : Counts)
    (hstat : fs.stat (Books.itemPath dbDir item) = some (item.size, item.mtime))
    (hids : (st.docs.map Doc.id).Nodup)
    (hp : Books.processItem fs dbDir st item = some (st', c)) :
    cleanForProp fs dbDir item st' := by
  cases hl : Books.updateLoop fs dbDir item st
      (st.docs.filter (fun d => d.title == item.title && d.type == item.type)) with
  | none =>
    rw [show Books.processItem fs dbDir st item = none from by
      simp [Books.processItem, hl]] at hp
    cases hp
  | some res =>
    obtain ⟨stm, c0, b⟩ := res
    have hsub : ∀ x ∈ st.docs.filter
        (fun d => d.title == item.title && d.type == item.type), x ∈ st.docs :=
      fun x hx => List.mem_of_mem_filter hx
    have hkeym : ∀ x ∈ st.docs.filter
        (fun d => d.title == item.title && d.type == item.type),
        x.title = item.title ∧ x.type = item.type := by
      intro x hx
      have := List.of_mem_filter hx
      simpa using this
    have hmids := filter_matches_nodup item st hids
    obtain ⟨lnext, lins, lrem, lf2, lclean, lbf, lbt⟩ :=
      updateLoop_spec fs dbDir item hstat _ st stm c0 b hids hsub hmids hkeym hl
    cases b with
    | true =>
      rw [show Books.processItem fs dbDir st item = some (stm, c0) from by
        simp [Books.processItem, hl]] at hp
      simp only [Option.some.injEq, Prod.mk.injEq] at hp
      obtain ⟨h1, h2⟩ := hp
      subst h1; subst h2
      constructor
      · intro d' hd' hfull'
        obtain ⟨x, hx, hrel⟩ := forall₂_mem_right lf2 d' hd'
        have hxfull : fullMatch item x :=
          ⟨hrel.2.1.symm.trans hfull'.1, hrel.2.2.1.symm.trans hfull'.2.1,
            hrel.2.2.2.1.symm.trans hfull'.2.2⟩
        exact lclean x (mem_filter_matches item st x hx hxfull) hxfull.2.2 d' hd' hrel.1
      · intro hnone
        obtain ⟨e, hem, hedir⟩ := lbt rfl
        obtain ⟨e', he', hrel⟩ := forall₂_mem_left lf2 e (hsub e hem)
        have hekey := hkeym e hem
        have : fullMatch item e' :=
          ⟨hrel.2.1.trans hekey.1, hrel.2.2.1.trans hekey.2, hrel.2.2.2.1.trans hedir⟩
        exact absurd this (hnone e' he')
    | false =>
      obtain ⟨hsteq, hc0, hnodir⟩ := lbf rfl
      subst hsteq
      cases hh : fs.hash (Books.itemPath dbDir item) with
      | none =>
        rw [show Books.processItem fs dbDir stm item = some (stm, c0) from by
          simp [Books.processItem, hl, Books.insert, hh]] at hp
        simp only [Option.some.injEq, Prod.mk.injEq] at hp
        obtain ⟨h1, h2⟩ := hp
        subst h1; subst h2
        constructor
        · intro d' hd' hfull'
          exact absurd hfull'.2.2 (hnodir d' (mem_filter_matches item stm d' hd' hfull'))
        · intro _; exact hh
      | some hv =>
        rw [show Books.processItem fs dbDir stm item
            = some (⟨stm.docs ++
                [⟨stm.nextId, item.title, item.type, item.dir, item.size, item.mtime,
                  some hv⟩], stm.nextId + 1⟩, ⟨c0.ins + 1, c0.upd, c0.rem⟩) from by
          simp [Books.processItem, hl, Books.insert, hh]] at hp
        simp only [Option.some.injEq, Prod.mk.injEq] at hp
        obtain ⟨h1, h2⟩ := hp
        subst h1; subst h2
        constructor
        · intro d' hd' hfull'
          rcases List.mem_append.mp hd' with hold | hnew
          · exact absurd hfull'.2.2 (hnodir d' (mem_filter_matches item stm d' hold hfull'))
          · have hdnew : d' = ⟨stm.nextId, item.title, item.type, item.dir,
                item.size, item.mtime, some hv⟩ := by simpa using hnew
            subst hdnew
            exact ⟨rfl, rfl, rfl⟩
        · intro hnone
          exact absurd (⟨rfl, rfl, rfl⟩ : fullMatch item
              ⟨stm.nextId, item.title, item.type, item.dir, item.size, item.mtime, some hv⟩)
            (hnone _ (by simp))

theorem processItem_preserves (fs : FS) (dbDir : Str) (it j : Item)
    (st st' : Store) (c : Counts)
    (hstat : fs.stat (Books.itemPath dbDir j) = some (j.size, j.mtime))
    (hids : (st.docs.map Doc.id).Nodup)
    (hkeydist : ¬(it.title = j.title ∧ it.type = j.type ∧ it.dir = j.dir))
    (hp : Books.processItem fs dbDir st j = some (st', c))
    (hcl : cleanForProp fs dbDir it st) :
    cleanForProp fs dbDir it st' := by
  have hnotboth : ∀ x : Doc, fullMatch it x → fullMatch j x → False := by
    intro x h1 h2
    exact hkeydist ⟨h1.1.symm.trans h2.1, h1.2.1.symm.trans h2.2.1,
      h1.2.2.symm.trans h2.2.2⟩
  cases hl : Books.updateLoop fs dbDir j st
      (st.docs.filter (fun d => d.title == j.title && d.type == j.type)) with
  | none =>
    rw [show Books.processItem fs dbDir st j = none from by
      simp [Books.processItem, hl]] at hp
    cases hp
  | some res =>
    obtain ⟨stm, c0, b⟩ := res
    have hsub : ∀ x ∈ st.docs.filter
        (fun d => d.title == j.title && d.type == j.type), x ∈ st.docs :=
      fun x hx => List.mem_of_mem_filter hx
    have hkeym : ∀ x ∈ st.docs.filter
        (fun d => d.title == j.title && d.type == j.type),
        x.title = j.title ∧ x.type = j.type := by
      intro x hx
      have := List.of_mem_filter hx
      simpa using this
    have hmids := filter_matches_nodup j st hids
    obtain ⟨lnext, lins, lrem, lf2, lclean, lbf, lbt⟩ :=
      updateLoop_spec fs dbDir j hstat _ st stm c0 b hids hsub hmids hkeym hl
    have hA : ∀ d' ∈ stm.docs, fullMatch it d' → cleanDoc it d' := by
      intro d' hd' hfull
      obtain ⟨x, hx, hrel⟩ := forall₂_mem_right lf2 d' hd'
      rcases hrel.2.2.2.2 with heq | hfj
      · subst heq
        exact hcl.1 d' hx hfull
      · exact (hnotboth d' hfull hfj.1).elim
    have hB : ∀ x ∈ st.docs, fullMatch it x → ∃ x' ∈ stm.docs, fullMatch it x' := by
      intro x hx hxf
      obtain ⟨x', hx', hrel⟩ := forall₂_mem_left lf2 x hx
      exact ⟨x', hx', hrel.2.1.trans hxf.1, hrel.2.2.1.trans hxf.2.1,
        hrel.2.2.2.1.trans hxf.2.2⟩
    cases b with
    | true =>
      rw [show Books.processItem fs dbDir st j = some (stm, c0) from by
        simp [Books.processItem, hl]] at hp
      simp only [Option.some.injEq, Prod.mk.injEq] at hp
      obtain ⟨h1, h2⟩ := hp
      subst h1; subst h2
      constructor
      · exact hA
      · intro hnone
        refine hcl.2 ?_
        intro x hx hxf
        obtain ⟨x', hx', hxf'⟩ := hB x hx hxf
        exact absurd hxf' (hnone x' hx')
    | false =>
      obtain ⟨hsteq, hc0, hnodir⟩ := lbf rfl
      subst hsteq
      cases hh : fs.hash (Books.itemPath dbDir j) with
      | none =>
        rw [show Books.processItem fs dbDir stm j = some (stm, c0) from by
          simp [Books.processItem, hl, Books.insert, hh]] at hp
        simp only [Option.some.injEq, Prod.mk.injEq] at hp
        obtain ⟨h1, h2⟩ := hp
        subst h1; subst h2
        exact hcl
      | some hv =>
        rw [show Books.processItem fs dbDir stm j
            = some (⟨stm.docs ++
                [⟨stm.nextId, j.title, j.type, j.dir, j.size, j.mtime,
                  some hv⟩], stm.nextId + 1⟩, ⟨c0.ins + 1, c0.upd, c0.rem⟩) from by
          simp [Books.processItem, hl, Books.insert, hh]] at hp
        simp only [Option.some.injEq, Prod.mk.injEq] at hp
        obtain ⟨h1, h2⟩ := hp
        subst h1; subst h2
        constructor
        · intro d' hd' hfull'
          rcases List.mem_append.mp hd' with hold | hnew
          · exact hcl.1 d' hold hfull'
          · have hdnew : d' = ⟨stm.nextId, j.title, j.type, j.dir,
                j.size, j.mtime, some hv⟩ := by simpa using hnew
            subst hdnew
            exact (hnotboth _ hfull' ⟨rfl, rfl, rfl⟩).elim
        · intro hnone
          refine hcl.2 ?_
          intro x hx hxf
          exact absurd hxf (hnone x (List.mem_append_left _ hx))

theorem processItem_wf (fs : FS) (dbDir : Str) (j : Item) (st st' : Store) (c : Counts)
    (hstat : fs.stat (Books.itemPath dbDir j) = some (j.size, j.mtime))
    (hwf : WFStore st)
    (hp : Books.processItem fs dbDir st j = some (st', c)) :
    WFStore st' := by
  obtain ⟨hids, hbound⟩ := hwf
  cases hl : Books.updateLoop fs dbDir j st
      (st.docs.filter (fun d => d.title == j.title && d.type == j.type)) with
  | none =>
    rw [show Books.processItem fs dbDir st j = none from by
      simp [Books.processItem, hl]] at hp
    cases hp
  | some res =>
    obtain ⟨stm, c0, b⟩ := res
    have hsub : ∀ x ∈ st.docs.filter
        (fun d => d.title == j.title && d.type == j.type), x ∈ st.docs :=
      fun x hx => List.mem_of_mem_filter hx
    have hkeym : ∀ x ∈ st.docs.filter
        (fun d => d.title == j.title && d.type == j.type),
        x.title = j.title ∧ x.type = j.type := by
      intro x hx
      have := List.of_mem_filter hx
      simpa using this
    have hmids := filter_matches_nodup j st hids
    obtain ⟨lnext, lins, lrem, lf2, lclean, lbf, lbt⟩ :=
      updateLoop_spec fs dbDir j hstat _ st stm c0 b hids hsub hmids hkeym hl
    have hmap : stm.docs.map Doc.id = st.docs.map Doc.id := forall₂_updRel_map_id j lf2
    have hwfm : WFStore stm := by
      refine ⟨by rw [hmap]; exact hids, ?_⟩
      intro d hd
      obtain ⟨x, hx, hrel⟩ := forall₂_mem_right lf2 d hd
      rw [lnext, hrel.1]
      exact hbound x hx
    cases b with
    | true =>
      rw [show Books.processItem fs dbDir st j = some (stm, c0) from by
        simp [Books.processItem, hl]] at hp
      simp only [Option.some.injEq, Prod.mk.injEq] at hp
      obtain ⟨h1, h2⟩ := hp
      subst h1; subst h2
      exact hwfm
    | false =>
      obtain ⟨hsteq, hc0, hnodir⟩ := lbf rfl
      subst hsteq
      cases hh : fs.hash (Books.itemPath dbDir j) with
      | none =>
        rw [show Books.processItem fs dbDir stm j = some (stm, c0) from by
          simp [Books.processItem, hl, Books.insert, hh]] at hp
        simp only [Option.some.injEq, Prod.mk.injEq] at hp
        obtain ⟨h1, h2⟩ := hp
        subst h1; subst h2
        exact hwfm
      | some hv =>
        rw [show Books.processItem fs dbDir stm j
            = some (⟨stm.docs ++
                [⟨stm.nextId, j.title, j.type, j.dir, j.size, j.mtime,
                  some hv⟩], stm.nextId + 1⟩, ⟨c0.ins + 1, c0.upd, c0.rem⟩) from by
          simp [Books.processItem, hl, Books.insert, hh]] at hp
        simp only [Option.some.injEq, Prod.mk.injEq] at hp
        obtain ⟨h1, h2⟩ := hp
        subst h1; subst h2
        obtain ⟨hidsm, hboundm⟩ := hwfm
        constructor
        · show ((stm.docs ++ [_]).map Doc.id).Nodup
          rw [List.map_append]
          refine List.Nodup.append hidsm (by simp) ?_
          intro a ha hb
          obtain ⟨x, hx, hxe⟩ := List.mem_map.mp ha
          have hlt := hboundm x hx
          have : a = stm.nextId := by simpa using hb
          omega
        · intro d hd
          rcases List.mem_append.mp hd with hold | hnew
          · have := hboundm d hold
            simp only []
            omega
          · have hdnew : d = ⟨stm.nextId, j.title, j.type, j.dir,
                j.size, j.mtime, some hv⟩ := by simpa using hnew
            subst hdnew
            simp

theorem updateLoop_noop (fs : FS) (dbDir : Str) (item : Item) (st : Store)
    (hstat : fs.stat (Books.itemPath dbDir item) = some (item.size, item.mtime)) :
    ∀ todo : List Doc, (∀ d ∈ todo, d.directory = item.dir → cleanDoc item d) →
      ∃ b, Books.updateLoop fs dbDir item st todo = some (st, ⟨0, 0, 0⟩, b)
        ∧ (b = false → ∀ d ∈ todo, d.directory ≠ item.dir) := by
  intro todo
  induction todo with
  | nil => intro _; exact ⟨false, rfl, fun _ d hd => by simp at hd⟩
  | cons d ds ih =>
    intro h
    obtain ⟨b, hb, hbf⟩ := ih (fun x hx => h x (by simp [hx]))
    by_cases hdir : d.directory = item.dir
    · have hclean := h d (by simp) hdir
      have hupd : Books.update fs dbDir st d item = some (st, 0, 0) := by
        obtain ⟨hv, hvv⟩ := Option.isSome_iff_exists.mp hclean.2.2
        simp [Books.update, hstat, hclean.1, hclean.2.1, hvv]
      refine ⟨true, by simp [Books.updateLoop, hdir, hupd, hb], by simp⟩
    · refine ⟨b, ?_, ?_⟩
      · rw [show Books.updateLoop fs dbDir item st (d :: ds)
            = Books.updateLoop fs dbDir item st ds from by
          simp [Books.updateLoop, hdir]]
        exact hb
      · intro hbf2 e he
        rcases List.mem_cons.mp he with rfl | he2
        · exact hdir
        · exact hbf hbf2 e he2

theorem processItem_noop (fs : FS) (dbDir : Str) (item : Item) (st : Store)
    (hstat : fs.stat (Books.itemPath dbDir item) = some (item.size, item.mtime))
    (hcl : cleanForProp fs dbDir item st) :
    Books.processItem fs dbDir st item = some (st, ⟨0, 0, 0⟩) := by
  have hcleanm : ∀ d ∈ st.docs.filter
      (fun d => d.title == item.title && d.type == item.type),
      d.directory = item.dir → cleanDoc item d := by
    intro d hd hdir
    have hkey : d.title = item.title ∧ d.type = item.type := by
      have := List.of_mem_filter hd
      simpa using this
    exact hcl.1 d (List.mem_of_mem_filter hd) ⟨hkey.1, hkey.2, hdir⟩
  obtain ⟨b, hb, hbf⟩ := updateLoop_noop fs dbDir item st hstat _ hcleanm
  cases b with
  | true => simp [Books.processItem, hb]
  | false =>
    have hnofull : ∀ d ∈ st.docs, ¬fullMatch item d := by
      intro d hd hf
      exact (hbf rfl d (mem_filter_matches item st d hd hf)) hf.2.2
    have hh := hcl.2 hnofull
    simp [Books.processItem, hb, Books.insert, hh]

theorem checknew_noop (fs : FS) (dbDir : Str) :
    ∀ (items : List Item) (st : Store),
      (∀ i ∈ items, fs.stat (Books.itemPath dbDir i) = some (i.size, i.mtime)) →
      (∀ i ∈ items, cleanForProp fs dbDir i st) →
      Books.checknew fs dbDir items st = some (st, ⟨0, 0, 0⟩) := by
  intro items
  induction items with
  | nil => intro st _ _; rfl
  | cons it rest ih =>
    intro st hstat hcl
    have hpi := processItem_noop fs dbDir it st (hstat it (by simp)) (hcl it (by simp))
    have hrest := ih st (fun i hi => hstat i (by simp [hi])) (fun i hi => hcl i (by simp [hi]))
    simp [Books.checknew, hpi, hrest]

theorem checknew_preserves (fs : FS) (dbDir : Str) (it : Item) :
    ∀ (items : List Item) (st st₁ : Store) (c : Counts),
      WFStore st →
      (∀ j ∈ items, fs.stat (Books.itemPath dbDir j) = some (j.size, j.mtime)) →
      (∀ j ∈ items, ¬(it.title = j.title ∧ it.type = j.type ∧ it.dir = j.dir)) →
      Books.checknew fs dbDir items st = some (st₁, c) →
      cleanForProp fs dbDir it st →
      cleanForProp fs dbDir it st₁ := by
  intro items
  induction items with
  | nil =>
    intro st st₁ c _ _ _ hck hcl
    simp only [Books.checknew, Option.some.injEq, Prod.mk.injEq] at hck
    obtain ⟨h1, h2⟩ := hck
    subst h1
    exact hcl
  | cons j rest ih =>
    intro st st₁ c hwf hstat hkd hck hcl
    cases hpi : Books.processItem fs dbDir st j with
    | none =>
      rw [show Books.checknew fs dbDir (j :: rest) st = none from by
        simp [Books.checknew, hpi]] at hck
      cases hck
    | some res =>
      obtain ⟨st₂, c1⟩ := res
      cases hrest : Books.checknew fs dbDir rest st₂ with
      | none =>
        rw [show Books.checknew fs dbDir (j :: rest) st = none from by
          simp [Books.checknew, hpi, hrest]] at hck
        cases hck
      | some res2 =>
        obtain ⟨st₃, c2⟩ := res2
        rw [show Books.checknew fs dbDir (j :: rest) st
            = some (st₃, ⟨c1.ins + c2.ins, c1.upd + c2.upd, c1.rem + c2.rem⟩) from by
          simp [Books.checknew, hpi, hrest]] at hck
        simp only [Option.some.injEq, Prod.mk.injEq] at hck
        obtain ⟨h1, h2⟩ := hck
        subst h1
        have hstatj := hstat j (by simp)
        have hcl2 := processItem_preserves fs dbDir it j st st₂ c1 hstatj hwf.1
          (hkd j (by simp)) hpi hcl
        have hwf2 := processItem_wf fs dbDir j st st₂ c1 hstatj hwf hpi
        exact ih st₂ st₃ c2 hwf2 (fun x hx => hstat x (by simp [hx]))
          (fun x hx => hkd x (by simp [hx])) hrest hcl2

theorem checknew_establishes (fs : FS) (dbDir : Str) :
    ∀ (items : List Item) (st st₁ : Store) (c : Counts),
      WFStore st →
      (∀ i ∈ items, fs.stat (Books.itemPath dbDir i) = some (i.size, i.mtime)) →
      items.Pairwise
        (fun a b => ¬(a.title = b.title ∧ a.type = b.type ∧ a.dir = b.dir)) →
      Books.checknew fs dbDir items st = some (st₁, c) →
      ∀ i ∈ items, cleanForProp fs dbDir i st₁ := by
  intro items
  induction items with
  | nil => intro st st₁ c _ _ _ _ i hi; simp at hi
  | cons it rest ih =>
    intro st st₁ c hwf hstat hpw hck i hi
    cases hpi : Books.processItem fs dbDir st it with
    | none =>
      rw [show Books.checknew fs dbDir (it :: rest) st = none from by
        simp [Books.checknew, hpi]] at hck
      cases hck
    | some res =>
      obtain ⟨st₂, c1⟩ := res
      cases hrest : Books.checknew fs dbDir rest st₂ with
      | none =>
        rw [show Books.checknew fs dbDir (it :: rest) st = none from by
          simp [Books.checknew, hpi, hrest]] at hck
        cases hck
      | some res2 =>
        obtain ⟨st₃, c2⟩ := res2
        rw [show Books.checknew fs dbDir (it :: rest) st
            = some (st₃, ⟨c1.ins + c2.ins, c1.upd + c2.upd, c1.rem + c2.rem⟩) from by
          simp [Books.checknew, hpi, hrest]] at hck
        simp only [Option.some.injEq, Prod.mk.injEq] at hck
        obtain ⟨h1, h2⟩ := hck
        subst h1
        have hstati := hstat it (by simp)
        have hwf2 := processItem_wf fs dbDir it st st₂ c1 hstati hwf hpi
        rcases List.mem_cons.mp hi with rfl | hi2
        · have hcl2 := processItem_establishes fs dbDir i st st₂ c1 hstati hwf.1 hpi
          exact checknew_preserves fs dbDir i rest st₂ st₃ c2 hwf2
            (fun x hx => hstat x (by simp [hx]))
            (fun x hx => (List.pairwise_cons.mp hpw).1 x hx) hrest hcl2
        · exact ih st₂ st₃ c2 hwf2 (fun x hx => hstat x (by simp [hx]))
            (List.pairwise_cons.mp hpw).2 hrest i hi2

/-- C1: reconciliation idempotence.  Starting from any well-formed store
(distinct document ids, all below the next fresh id), run `checkNew()`
over the items of a scan whose `(title, type, directory)` keys are
pairwise distinct and whose stat data still matches the scan (no
filesystem changes).  If the first run completes, a second run over the
same items performs zero insertions and zero updates (and zero
removals): for every record either a matching clean document with a
computed hash already exists (so the update path does nothing), or the
file is unreadable, so the retried insertion is abandoned exactly as in
the first run.  The store is returned unchanged. -/
theorem checknew_second_run_noop (fs : FS) (dbDir : Str) (items : List Item)
    (st₀ st₁ : Store) (c₁ : Counts)
    (hwf : WFStore st₀)
    (hstat : ∀ i ∈ items, fs.stat (Books.itemPath dbDir i) = some (i.size, i.mtime))
    (hkeys : items.Pairwise
      (fun a b => ¬(a.title = b.title ∧ a.type = b.type ∧ a.dir = b.dir)))
    (h1 : Books.checknew fs dbDir items st₀ = some (st₁, c₁)) :
    Books.checknew fs dbDir items st₁ = some (st₁, ⟨0, 0, 0⟩) := by
  have hcl := checknew_establishes fs dbDir items st₀ st₁ c₁ hwf hstat hkeys h1
  exact checknew_noop fs dbDir items st₁ hstat hcl

theorem checknew_second_run_noop_witness :
    Books.checknew
        ⟨fun p => if p == ['p'] then some (3, 4) else none, fun _ => true, fun _ => some 9⟩
        [] [⟨['d'], ['t'], ['y'], 3, 4, ['p']⟩]
        ⟨[⟨0, ['t'], ['y'], ['d'], 3, 4, some 9⟩], 1⟩
      = some (⟨[⟨0, ['t'], ['y'], ['d'], 3, 4, some 9⟩], 1⟩, ⟨0, 0, 0⟩) :=
  checknew_second_run_noop
    ⟨fun p => if p == ['p'] then some (3, 4) else none, fun _ => true, fun _ => some 9⟩
    [] [⟨['d'], ['t'], ['y'], 3, 4, ['p']⟩] ⟨[], 0⟩
    ⟨[⟨0, ['t'], ['y'], ['d'], 3, 4, some 9⟩], 1⟩ ⟨1, 0, 0⟩
    (by simp [WFStore]) (by decide) (by decide) (by decide)
